import Mathlib

/-!
Verification of the multi-path retrieval and ranking pipeline
(`app/rag`: RRF fusion, MMR diversity reordering, ranking engine,
rerank service, recall strategies, search gateway).

The Python source is shallowly embedded: real-number scores are modelled
exactly over `ℚ`, dictionaries keyed by doc id are modelled as
insertion-ordered association lists (matching CPython dict iteration
order), external calls (Redis, SQL, Milvus, Elasticsearch, the rerank
model) are passed in as `Except`/`Option` outcomes, and a raised Python
exception that escapes a function is modelled by an `Option`-valued
result (`none` = the call raised).
-/

namespace RagPipeline

/-! ## Data model (`app/rag/models/candidate.py`)

`metadata` dictionaries are only ever read at the keys `"category"` and
`"source"` (by `calculate_similarity`) and `"source"` (by the policy
engine), so they are embedded as a record of those two optional keys.
-/

structure MetaMap where
  category : Option String
  source : Option String
deriving DecidableEq, Repr, Inhabited

/-- `CandidateItem` from `candidate.py`: doc id, raw per-source score,
source tag, optional content and metadata. -/
structure CandidateItem where
  doc_id : String
  score : ℚ
  srcTag : String
  content : Option String
  metadata : Option MetaMap
deriving DecidableEq, Repr, Inhabited

/-- `ScoredItem` from `candidate.py`: produced by the rerank service. -/
structure ScoredItem where
  doc_id : String
  final_score : ℚ
  original_score : ℚ
  rerank_score : Option ℚ
  content : Option String
  metadata : Option MetaMap
deriving DecidableEq, Repr, Inhabited

/-! ## Stable descending sort

Python's `list.sort(key=..., reverse=True)` and `sorted(..., reverse=True)`
are stable descending sorts; a stable sort is a unique function of the
input, so any structurally stable implementation is a faithful embedding.
We use insertion sort built by a right fold: an element is inserted in
front of the first element with a key not larger than its own, so
elements appearing earlier in the input stay in front of later elements
with an equal key. -/

def insertDescBy (key : α → ℚ) (x : α) : List α → List α
  | [] => [x]
  | y :: ys => if key x < key y then y :: insertDescBy key x ys else x :: y :: ys

def sortDescBy (key : α → ℚ) (l : List α) : List α :=
  l.foldr (insertDescBy key) []

/-! ## RRF fusion (`app/rag/fusion/rrf_fusion.py`)

`rrf_merge` iterates the concatenation of the input lists in order; for
each candidate at 0-based rank `r` of its own list it adds `1/(k + r)`
to a `defaultdict` keyed by doc id (first touch appends the key at the
end, so dict order is first-seen order), keeping the first candidate
seen for each doc id; then it copies each summed score into the kept
candidate's `score`, sorts by score descending (stable), and truncates
to `top_n`.

The accumulator is polymorphic in the payload carried with each doc id
so that the same definition serves the value-level model (payload =
`CandidateItem`) and the heap model of the in-place mutation (payload =
a store reference). -/

/-- Tags each element of a list with its 0-based rank (Python `enumerate`). -/
def withRanks : List α → ℕ → List (α × ℕ)
  | [], _ => []
  | x :: xs, r => (x, r) :: withRanks xs (r + 1)

/-- The pairs (candidate, 0-based rank in its own list), concatenated in
input-list order. -/
def occurrences (lists : List (List α)) : List (α × ℕ) :=
  lists.flatMap (fun l => withRanks l 0)

/-- One entry of the accumulation dict: doc id, running RRF sum, and the
payload kept from the first occurrence of that doc id. -/
structure RRFEntry (α : Type) where
  doc_id : String
  rrf_score : ℚ
  candidate : α
deriving DecidableEq, Repr

/-- One `doc_scores[...doc_id...]` update: add `incr` to an existing
entry (keeping its position and its stored payload), or append a fresh
entry at the end. -/
def rrfInsert (docId : α → String) (acc : List (RRFEntry α)) (c : α) (incr : ℚ) :
    List (RRFEntry α) :=
  match acc with
  | [] => [⟨docId c, incr, c⟩]
  | e :: es =>
    if e.doc_id = docId c then ⟨e.doc_id, e.rrf_score + incr, e.candidate⟩ :: es
    else e :: rrfInsert docId es c incr

/-- The double loop of `rrf_merge`, folded over all occurrences. -/
def rrfAccum (docId : α → String) (k : ℤ) (occs : List (α × ℕ)) : List (RRFEntry α) :=
  occs.foldl (fun acc p => rrfInsert docId acc p.1 (1 / ((k : ℚ) + (p.2 : ℚ)))) []

/-- `rrf_merge`. Python raises `ZeroDivisionError` (re-raised by the
surrounding `except`) as soon as some occurrence has `k + rank = 0`;
since the double loop visits every occurrence unconditionally, the call
returns normally iff no occurrence has a zero denominator. -/
def rrf_merge (candidate_lists : List (List CandidateItem)) (top_n : ℕ) (k : ℤ) :
    Option (List CandidateItem) :=
  if (occurrences candidate_lists).all (fun p => k + (p.2 : ℤ) != 0) then
    some ((((sortDescBy (fun e => e.rrf_score)
        (rrfAccum CandidateItem.doc_id k (occurrences candidate_lists)))).take top_n).map
      (fun e => { e.candidate with score := e.rrf_score }))
  else none

/-! ## Spec-side description of RRF (claim C1)

Written from the claim's words: sum `1/(k + r)` over each occurrence of
a doc id at 0-based rank `r`, keep the content/metadata of the first
candidate bearing that doc id, sort doc ids by summed score descending
with ties broken by first-seen order across the concatenation, truncate
to `top_n`. -/

/-- Doc ids in first-seen order across the concatenation of the lists. -/
def firstSeenOrder (ids : List String) : List String :=
  ids.foldl (fun acc i => if i ∈ acc then acc else acc ++ [i]) []

/-- Summed `1/(k + r)` over every occurrence of `id`. -/
def rrfSummedScore (docId : α → String) (k : ℤ) (occs : List (α × ℕ)) (id : String) : ℚ :=
  ((occs.filter (fun p => decide (docId p.1 = id))).map (fun p => 1 / ((k : ℚ) + (p.2 : ℚ)))).sum

/-- The first payload in concatenation order bearing `id`. -/
def firstPayload [Inhabited α] (docId : α → String) (occs : List (α × ℕ)) (id : String) : α :=
  ((occs.find? (fun p => decide (docId p.1 = id))).map Prod.fst).getD default

/-- The claim's description of the fused list. -/
def rrfSpecMerge (candidate_lists : List (List CandidateItem)) (top_n : ℕ) (k : ℤ) :
    List CandidateItem :=
  ((sortDescBy (rrfSummedScore CandidateItem.doc_id k (occurrences candidate_lists))
      (firstSeenOrder ((occurrences candidate_lists).map (fun p => p.1.doc_id)))).take top_n).map
    (fun id =>
      { firstPayload CandidateItem.doc_id (occurrences candidate_lists) id with
        score := rrfSummedScore CandidateItem.doc_id k (occurrences candidate_lists) id })

example :
    rrf_merge [[⟨"a", 9/10, "vector", none, none⟩, ⟨"b", 8/10, "vector", none, none⟩,
                ⟨"c", 5/10, "vector", none, none⟩],
               [⟨"b", 12, "keyword", none, none⟩, ⟨"d", 9, "keyword", none, none⟩]] 3 60 =
    some [⟨"b", 1/61 + 1/60, "vector", none, none⟩, ⟨"a", 1/60, "vector", none, none⟩,
          ⟨"d", 1/61, "keyword", none, none⟩] := by
  norm_num +decide [rrf_merge, occurrences, withRanks, rrfAccum, rrfInsert, sortDescBy,
    insertDescBy]

example :
    rrfSpecMerge [[⟨"a", 9/10, "vector", none, none⟩, ⟨"b", 8/10, "vector", none, none⟩,
                   ⟨"c", 5/10, "vector", none, none⟩],
                  [⟨"b", 12, "keyword", none, none⟩, ⟨"d", 9, "keyword", none, none⟩]] 3 60 =
    [⟨"b", 1/61 + 1/60, "vector", none, none⟩, ⟨"a", 1/60, "vector", none, none⟩,
     ⟨"d", 1/61, "keyword", none, none⟩] := by
  norm_num +decide [rrfSpecMerge, occurrences, withRanks, firstSeenOrder, rrfSummedScore,
    firstPayload, sortDescBy, insertDescBy]

example : rrf_merge [[⟨"a", 1, "vector", none, none⟩]] 3 0 = none := by
  norm_num [rrf_merge, occurrences, withRanks]

/-! ## Canonical form of the RRF accumulation dict -/

/-- The canonical dict entry for a doc id: summed score plus first payload. -/
def canonEntry [Inhabited α] (docId : α → String) (k : ℤ) (occs : List (α × ℕ)) (id : String) :
    RRFEntry α :=
  ⟨id, rrfSummedScore docId k occs id, firstPayload docId occs id⟩

theorem firstSeenOrder_go_mem (l acc : List String) (x : String) :
    (x ∈ l.foldl (fun acc i => if i ∈ acc then acc else acc ++ [i]) acc) ↔ x ∈ acc ∨ x ∈ l := by
  induction l generalizing acc with
  | nil => simp
  | cons a l ih =>
    simp only [List.foldl_cons]
    by_cases h : a ∈ acc
    · rw [if_pos h, ih]
      constructor
      · rintro (hx | hx)
        · exact Or.inl hx
        · exact Or.inr (List.mem_cons_of_mem _ hx)
      · rintro (hx | hx)
        · exact Or.inl hx
        · rcases List.mem_cons.1 hx with rfl | hx
          · exact Or.inl h
          · exact Or.inr hx
    · rw [if_neg h, ih]
      simp only [List.mem_append, List.mem_cons, List.mem_singleton]
      tauto

theorem mem_firstSeenOrder (l : List String) (x : String) :
    x ∈ firstSeenOrder l ↔ x ∈ l := by
  rw [firstSeenOrder, firstSeenOrder_go_mem]
  simp

theorem firstSeenOrder_go_nodup (l acc : List String) (h : acc.Nodup) :
    (l.foldl (fun acc i => if i ∈ acc then acc else acc ++ [i]) acc).Nodup := by
  induction l generalizing acc with
  | nil => exact h
  | cons a l ih =>
    simp only [List.foldl_cons]
    by_cases ha : a ∈ acc
    · rw [if_pos ha]; exact ih _ h
    · rw [if_neg ha]
      refine ih _ ?_
      rw [List.nodup_append]
      refine ⟨h, List.nodup_singleton a, ?_⟩
      intro x hx hxs
      rw [List.mem_singleton] at hxs
      subst hxs
      exact ha hx

theorem nodup_firstSeenOrder (l : List String) : (firstSeenOrder l).Nodup :=
  firstSeenOrder_go_nodup l [] List.nodup_nil

theorem firstSeenOrder_concat (l : List String) (x : String) :
    firstSeenOrder (l ++ [x]) =
      if x ∈ l then firstSeenOrder l else firstSeenOrder l ++ [x] := by
  rw [firstSeenOrder, List.foldl_append]
  show (if x ∈ firstSeenOrder l then firstSeenOrder l else firstSeenOrder l ++ [x]) = _
  by_cases hx : x ∈ l
  · rw [if_pos ((mem_firstSeenOrder l x).2 hx), if_pos hx]
  · rw [if_neg (fun hc => hx ((mem_firstSeenOrder l x).1 hc)), if_neg hx]

theorem rrfInsert_append_of_not_mem (docId : α → String) (acc : List (RRFEntry α)) (c : α)
    (incr : ℚ) (h : ∀ e ∈ acc, e.doc_id ≠ docId c) :
    rrfInsert docId acc c incr = acc ++ [⟨docId c, incr, c⟩] := by
  induction acc with
  | nil => rfl
  | cons e es ih =>
    rw [rrfInsert, if_neg (h e (List.mem_cons_self e es))]
    rw [ih (fun e' he' => h e' (List.mem_cons_of_mem _ he'))]
    rfl

theorem rrfInsert_map_of_mem (docId : α → String) (ids : List String) (g : String → RRFEntry α)
    (c : α) (incr : ℚ) (hg : ∀ id ∈ ids, (g id).doc_id = id) (hnd : ids.Nodup)
    (hmem : docId c ∈ ids) :
    rrfInsert docId (ids.map g) c incr =
      ids.map (fun id => if id = docId c then
        ⟨(g id).doc_id, (g id).rrf_score + incr, (g id).candidate⟩ else g id) := by
  induction ids with
  | nil => cases hmem
  | cons i is ih =>
    have hgi : (g i).doc_id = i := hg i (List.mem_cons_self i is)
    simp only [List.map_cons]
    rw [rrfInsert]
    by_cases hi : i = docId c
    · rw [if_pos (by rw [hgi, hi]), if_pos hi]
      congr 1
      refine (List.map_congr_left ?_).symm
      intro id hid
      have hne : id ≠ docId c := by
        rintro rfl
        exact (List.nodup_cons.1 hnd).1 (hi ▸ hid)
      rw [if_neg hne]
    · rw [if_neg (by rw [hgi]; exact hi), if_neg hi]
      have hmem' : docId c ∈ is := by
        rcases List.mem_cons.1 hmem with h | h
        · exact absurd h.symm hi
        · exact h
      rw [ih (fun id hid => hg id (List.mem_cons_of_mem _ hid)) (List.nodup_cons.1 hnd).2 hmem']

theorem rrfSummedScore_concat (docId : α → String) (k : ℤ) (occs : List (α × ℕ)) (p : α × ℕ)
    (id : String) :
    rrfSummedScore docId k (occs ++ [p]) id =
      rrfSummedScore docId k occs id +
        (if docId p.1 = id then 1 / ((k : ℚ) + (p.2 : ℚ)) else 0) := by
  rw [rrfSummedScore, rrfSummedScore, List.filter_append, List.map_append, List.sum_append]
  congr 1
  by_cases h : docId p.1 = id
  · simp [List.filter_cons, h]
  · simp [List.filter_cons, h]

theorem find?_append_left (l1 l2 : List β) (f : β → Bool) (h : (l1.find? f).isSome) :
    (l1 ++ l2).find? f = l1.find? f := by
  rw [List.find?_append]
  rcases Option.isSome_iff_exists.1 h with ⟨x, hx⟩
  rw [hx]
  rfl

theorem mem_ids_iff_find?_isSome (docId : α → String) (occs : List (α × ℕ)) (id : String) :
    id ∈ occs.map (fun q => docId q.1) ↔
      (occs.find? (fun p => decide (docId p.1 = id))).isSome := by
  rw [List.find?_isSome]
  simp [List.mem_map]

theorem firstPayload_concat_of_mem [Inhabited α] (docId : α → String) (occs : List (α × ℕ))
    (p : α × ℕ) (id : String) (h : id ∈ occs.map (fun q => docId q.1)) :
    firstPayload docId (occs ++ [p]) id = firstPayload docId occs id := by
  rw [firstPayload, firstPayload,
    find?_append_left _ _ _ ((mem_ids_iff_find?_isSome docId occs id).1 h)]

theorem firstPayload_concat_of_not_mem [Inhabited α] (docId : α → String) (occs : List (α × ℕ))
    (p : α × ℕ) (id : String) (h : id ∉ occs.map (fun q => docId q.1)) (hp : docId p.1 = id) :
    firstPayload docId (occs ++ [p]) id = p.1 := by
  rw [firstPayload, List.find?_append]
  have hnone : occs.find? (fun q => decide (docId q.1 = id)) = none := by
    rcases Option.eq_none_or_eq_some (occs.find? (fun q => decide (docId q.1 = id))) with h0 | h0
    · exact h0
    · exact absurd ((mem_ids_iff_find?_isSome docId occs id).2
        (by rw [h0.choose_spec]; rfl)) h
  rw [hnone]
  simp [List.find?_cons, hp]

theorem rrfSummedScore_of_not_mem (docId : α → String) (k : ℤ) (occs : List (α × ℕ))
    (id : String) (h : id ∉ occs.map (fun q => docId q.1)) :
    rrfSummedScore docId k occs id = 0 := by
  rw [rrfSummedScore]
  have : occs.filter (fun p => decide (docId p.1 = id)) = [] := by
    rw [List.filter_eq_nil_iff]
    intro p hp
    simp only [decide_eq_true_eq]
    intro hc
    exact h (List.mem_map.2 ⟨p, hp, hc⟩)
  rw [this]
  rfl

/-- The accumulated dict of `rrf_merge` is: one entry per doc id, in
first-seen order, carrying the summed score and the first payload. -/
theorem rrfAccum_canonical [Inhabited α] (docId : α → String) (k : ℤ) (occs : List (α × ℕ)) :
    rrfAccum docId k occs =
      (firstSeenOrder (occs.map (fun p => docId p.1))).map (canonEntry docId k occs) := by
  induction occs using List.reverseRecOn with
  | nil => rfl
  | append_singleton os p ih =>
    rw [rrfAccum, List.foldl_append, List.foldl_cons, List.foldl_nil, ← rrfAccum, ih,
      List.map_append, List.map_cons, List.map_nil]
    by_cases hmem : docId p.1 ∈ os.map (fun q => docId q.1)
    · rw [firstSeenOrder_concat, if_pos hmem]
      rw [rrfInsert_map_of_mem docId _ (canonEntry docId k os) p.1 _
        (fun id _ => rfl) (nodup_firstSeenOrder _)
        ((mem_firstSeenOrder _ _).2 hmem)]
      refine List.map_congr_left ?_
      intro id hid
      have hid' : id ∈ os.map (fun q => docId q.1) := (mem_firstSeenOrder _ _).1 hid
      by_cases hi : id = docId p.1
      · rw [if_pos hi]
        simp only [canonEntry]
        rw [rrfSummedScore_concat, if_pos hi.symm,
          firstPayload_concat_of_mem docId os p id hid']
      · rw [if_neg hi]
        simp only [canonEntry]
        rw [rrfSummedScore_concat, if_neg (fun hc => hi hc.symm), add_zero,
          firstPayload_concat_of_mem docId os p id hid']
    · rw [firstSeenOrder_concat, if_neg hmem]
      rw [rrfInsert_append_of_not_mem docId _ p.1 _ (by
        intro e he
        rcases List.mem_map.1 he with ⟨id, hid, rfl⟩
        have hid' : id ∈ os.map (fun q => docId q.1) := (mem_firstSeenOrder _ _).1 hid
        show id ≠ docId p.1
        intro hc
        exact hmem (hc ▸ hid'))]
      rw [List.map_append, List.map_cons, List.map_nil]
      congr 1
      · refine List.map_congr_left ?_
        intro id hid
        have hid' : id ∈ os.map (fun q => docId q.1) := (mem_firstSeenOrder _ _).1 hid
        have hne : docId p.1 ≠ id := fun hc => hmem (hc ▸ hid')
        simp only [canonEntry]
        rw [rrfSummedScore_concat, if_neg hne, add_zero,
          firstPayload_concat_of_mem docId os p id hid']
      · simp only [canonEntry]
        have hs : rrfSummedScore docId k (os ++ [p]) (docId p.1) =
            1 / ((k : ℚ) + (p.2 : ℚ)) := by
          rw [rrfSummedScore_concat, if_pos rfl, rrfSummedScore_of_not_mem docId k os _ hmem,
            zero_add]
        rw [hs, firstPayload_concat_of_not_mem docId os p _ hmem rfl]

/-! ## The stable sort commutes with mapping over an id list -/

theorem insertDescBy_map (key : β → ℚ) (f : α → β) (x : α) (l : List α) :
    insertDescBy key (f x) (l.map f) = (insertDescBy (fun a => key (f a)) x l).map f := by
  induction l with
  | nil => rfl
  | cons y ys ih =>
    simp only [List.map_cons, insertDescBy]
    by_cases h : key (f x) < key (f y)
    · rw [if_pos h, if_pos h, ih, List.map_cons]
    · rw [if_neg h, if_neg h, List.map_cons, List.map_cons]

theorem sortDescBy_map (key : β → ℚ) (f : α → β) (l : List α) :
    sortDescBy key (l.map f) = (sortDescBy (fun a => key (f a)) l).map f := by
  induction l with
  | nil => rfl
  | cons x xs ih =>
    simp only [sortDescBy, List.map_cons, List.foldr_cons] at ih ⊢
    rw [ih, insertDescBy_map]

/-! ## Claim C1 -/

/-- C1, counterexample: the claim quantifies over every `k`, but at
`k = 0` a candidate at rank 0 makes the code divide by zero
(`ZeroDivisionError`, re-raised by the logging `except`), so `rrf_merge`
raises instead of producing the described list. -/
theorem rrf_merge_zero_denominator_cx :
    rrf_merge [[⟨"a", 1, "vector", none, none⟩]] 3 0 = none := by
  norm_num [rrf_merge, occurrences, withRanks]

/-- C1 (amended: for every `k` whose denominators `k + r` never hit zero
on the given inputs — in particular every `k ≥ 1`): `rrf_merge` returns
the list obtained by summing `1/(k + r)` per occurrence, keeping the
first-seen candidate per doc id, sorting doc ids by summed score
descending with ties broken by first-seen order across the
concatenation, and truncating to `top_n`. -/
theorem rrf_merge_matches_spec (lists : List (List CandidateItem)) (top_n : ℕ) (k : ℤ)
    (hk : ∀ p ∈ occurrences lists, k + (p.2 : ℤ) ≠ 0) :
    rrf_merge lists top_n k = some (rrfSpecMerge lists top_n k) := by
  rw [rrf_merge, if_pos (by
    rw [List.all_eq_true]
    intro p hp
    simpa using hk p hp)]
  congr 1
  rw [rrfAccum_canonical, rrfSpecMerge,
    sortDescBy_map (fun e => e.rrf_score) (canonEntry CandidateItem.doc_id k (occurrences lists)),
    ← List.map_take, List.map_map]
  rfl

/-- C1 witness: the amended theorem applied to the two-source example of
the spec (vector `[a, b, c]`, keyword `[b, d]`, `k = 60`). -/
theorem rrf_merge_matches_spec_witness :
    rrf_merge [[⟨"a", 9/10, "vector", none, none⟩, ⟨"b", 8/10, "vector", none, none⟩,
                ⟨"c", 5/10, "vector", none, none⟩],
               [⟨"b", 12, "keyword", none, none⟩, ⟨"d", 9, "keyword", none, none⟩]] 3 60 =
      some (rrfSpecMerge
        [[⟨"a", 9/10, "vector", none, none⟩, ⟨"b", 8/10, "vector", none, none⟩,
          ⟨"c", 5/10, "vector", none, none⟩],
         [⟨"b", 12, "keyword", none, none⟩, ⟨"d", 9, "keyword", none, none⟩]] 3 60) :=
  rrf_merge_matches_spec _ 3 60 (by decide)

/-! ## MMR (`app/rag/ranking/mmr.py`)

The items reaching `mmr_rerank` are duck-typed: the code only reads
`getattr(item, "final_score", 0.0)`, `getattr(item, "metadata", {})`
(also via `calculate_similarity`) and, in the surrounding engine,
`getattr(item, "doc_id", None)`. `final_score` is `none` for items
lacking the attribute (such as `CandidateItem`). -/

structure RankItem where
  doc_id : String
  final_score : Option ℚ
  metadata : Option MetaMap
deriving DecidableEq, Repr, Inhabited

/-- `(getattr(item, "metadata", {}) or {}).get("category")`. -/
def metaCategory : Option MetaMap → Option String
  | none => none
  | some m => m.category

/-- `(getattr(item, "metadata", {}) or {}).get("source")`. -/
def metaSource : Option MetaMap → Option String
  | none => none
  | some m => m.source

/-- `calculate_similarity`: same `"category"` value adds 0.6, same
`"source"` value adds 0.4, capped at 1.0. Two absent values compare
equal, as `None == None` does in Python. -/
def calculate_similarity (item1 item2 : RankItem) : ℚ :=
  min ((if metaCategory item1.metadata = metaCategory item2.metadata then 6/10 else 0) +
       (if metaSource item1.metadata = metaSource item2.metadata then 4/10 else 0)) 1

/-- `relevance = getattr(item, "final_score", 0.0)`. -/
def mmrRelevance (it : RankItem) : ℚ := it.final_score.getD 0

/-- The inner `max` loop over the already-selected items (0 when none). -/
def maxSimilarity (it : RankItem) (selected : List RankItem) : ℚ :=
  selected.foldl (fun acc s => max acc (calculate_similarity it s)) 0

/-- `mmr_score = lambda_param * relevance - (1 - lambda_param) * max_similarity`. -/
def mmrScore (lam : ℚ) (selected : List RankItem) (it : RankItem) : ℚ :=
  lam * mmrRelevance it - (1 - lam) * maxSimilarity it selected

/-- The candidate scan of one `while` iteration: `best_score` starts at
the sentinel `-999999` and is replaced only by a strictly greater score,
so the first maximizer wins, and no candidate at all is chosen when
every score is `≤ -999999`. -/
def mmrPickGo (lam : ℚ) (selected : List RankItem) :
    ℚ → Option (RankItem × ℕ) → List (RankItem × ℕ) → Option (RankItem × ℕ)
  | _, best, [] => best
  | best_score, best, (it, idx) :: rest =>
    if best_score < mmrScore lam selected it then
      mmrPickGo lam selected (mmrScore lam selected it) (some (it, idx)) rest
    else
      mmrPickGo lam selected best_score best rest

def mmrPick (lam : ℚ) (selected : List RankItem) (remaining : List RankItem) :
    Option (RankItem × ℕ) :=
  mmrPickGo lam selected (-999999) none (withRanks remaining 0)

/-- The `while len(selected) < top_n and remaining` loop; the fuel
argument is the remaining capacity `top_n - len(selected)`, which drops
by exactly one per iteration. -/
def mmrLoop (lam : ℚ) : ℕ → List RankItem → List RankItem → List RankItem
  | 0, selected, _ => selected
  | _ + 1, selected, [] => selected
  | steps + 1, selected, r :: rs =>
    match mmrPick lam selected (r :: rs) with
    | none => selected
    | some (it, idx) => mmrLoop lam steps (selected ++ [it]) ((r :: rs).eraseIdx idx)

/-- `mmr_rerank`: empty input short-circuits; a `lambda_param` outside
`[0, 1]` is replaced by the default 0.5; then the greedy loop runs. -/
def mmr_rerank (items : List RankItem) (lambda_param : ℚ) (top_n : ℕ) : List RankItem :=
  if items = [] then []
  else
    mmrLoop (if lambda_param < 0 ∨ 1 < lambda_param then 1/2 else lambda_param) top_n [] items

/-! ### Spec-side greedy selection (claim C4)

Written from the claim's words: at each step pick the remaining
candidate maximizing the MMR objective, ties keeping the first maximizer
in current list order — with no sentinel threshold, so a candidate is
always picked while any remain. -/

def specPickGo (lam : ℚ) (selected : List RankItem) :
    Option (ℚ × RankItem × ℕ) → List (RankItem × ℕ) → Option (RankItem × ℕ)
  | best, [] => best.map (fun b => (b.2.1, b.2.2))
  | none, (it, idx) :: rest =>
    specPickGo lam selected (some (mmrScore lam selected it, it, idx)) rest
  | some b, (it, idx) :: rest =>
    if b.1 < mmrScore lam selected it then
      specPickGo lam selected (some (mmrScore lam selected it, it, idx)) rest
    else
      specPickGo lam selected (some b) rest

def specPick (lam : ℚ) (selected : List RankItem) (remaining : List RankItem) :
    Option (RankItem × ℕ) :=
  specPickGo lam selected none (withRanks remaining 0)

def specGreedyLoop (lam : ℚ) : ℕ → List RankItem → List RankItem → List RankItem
  | 0, selected, _ => selected
  | _ + 1, selected, [] => selected
  | steps + 1, selected, r :: rs =>
    match specPick lam selected (r :: rs) with
    | none => selected
    | some (it, idx) => specGreedyLoop lam steps (selected ++ [it]) ((r :: rs).eraseIdx idx)

def mmrSpecGreedy (items : List RankItem) (lam : ℚ) (top_n : ℕ) : List RankItem :=
  specGreedyLoop lam top_n [] items

/-! ### Bounds on the similarity penalty -/

theorem calculate_similarity_le_one (i j : RankItem) : calculate_similarity i j ≤ 1 :=
  min_le_right _ _

theorem maxSimilarity_go_le_one (it : RankItem) (sel : List RankItem) (acc : ℚ)
    (h : acc ≤ 1) :
    sel.foldl (fun a s => max a (calculate_similarity it s)) acc ≤ 1 := by
  induction sel generalizing acc with
  | nil => exact h
  | cons s ss ih =>
    exact ih _ (max_le h (calculate_similarity_le_one it s))

theorem maxSimilarity_le_one (it : RankItem) (sel : List RankItem) :
    maxSimilarity it sel ≤ 1 :=
  maxSimilarity_go_le_one it sel 0 (by norm_num)

/-- Every candidate whose relevance clears the sentinel with a full
similarity penalty also clears it with the true penalty. -/
theorem mmrScore_gt_sentinel (lam : ℚ) (sel : List RankItem) (it : RankItem)
    (h0 : 0 ≤ lam) (h1 : lam ≤ 1)
    (h : -999999 < lam * mmrRelevance it - (1 - lam)) :
    -999999 < mmrScore lam sel it := by
  rw [mmrScore]
  have hp : (1 - lam) * maxSimilarity it sel ≤ (1 - lam) * 1 :=
    mul_le_mul_of_nonneg_left (maxSimilarity_le_one it sel) (by linarith)
  linarith

/-! ### The sentinel scan agrees with the first-maximizer scan -/

theorem mmrPickGo_some_eq_specPickGo (lam : ℚ) (sel : List RankItem)
    (pairs : List (RankItem × ℕ)) (bs : ℚ) (it : RankItem) (idx : ℕ) :
    mmrPickGo lam sel bs (some (it, idx)) pairs = specPickGo lam sel (some (bs, it, idx)) pairs := by
  induction pairs generalizing bs it idx with
  | nil => rfl
  | cons p rest ih =>
    obtain ⟨it', idx'⟩ := p
    rw [mmrPickGo, specPickGo]
    by_cases h : bs < mmrScore lam sel it'
    · rw [if_pos h, if_pos h, ih]
    · rw [if_neg h, if_neg h, ih]

theorem mmrPickGo_none_eq_specPickGo (lam : ℚ) (sel : List RankItem)
    (pairs : List (RankItem × ℕ))
    (h : ∀ p ∈ pairs, -999999 < mmrScore lam sel p.1) :
    mmrPickGo lam sel (-999999) none pairs = specPickGo lam sel none pairs := by
  cases pairs with
  | nil => rfl
  | cons p rest =>
    obtain ⟨it, idx⟩ := p
    rw [mmrPickGo, specPickGo, if_pos (h (it, idx) (List.mem_cons_self _ _)),
      mmrPickGo_some_eq_specPickGo]

theorem mem_withRanks (l : List α) (n : ℕ) (p : α × ℕ) (h : p ∈ withRanks l n) :
    p.1 ∈ l := by
  induction l generalizing n with
  | nil => cases h
  | cons x xs ih =>
    rw [withRanks] at h
    rcases List.mem_cons.1 h with rfl | h
    · exact List.mem_cons_self _ _
    · exact List.mem_cons_of_mem _ (ih _ h)

theorem mmrPick_eq_specPick (lam : ℚ) (sel : List RankItem) (remaining : List RankItem)
    (h0 : 0 ≤ lam) (h1 : lam ≤ 1)
    (h : ∀ it ∈ remaining, -999999 < lam * mmrRelevance it - (1 - lam)) :
    mmrPick lam sel remaining = specPick lam sel remaining := by
  rw [mmrPick, specPick, mmrPickGo_none_eq_specPickGo]
  intro p hp
  exact mmrScore_gt_sentinel lam sel p.1 h0 h1 (h p.1 (mem_withRanks _ _ _ hp))

/-! ### The spec scan always picks, with an in-range index -/

theorem withRanks_idx_lt (l : List α) (n : ℕ) (p : α × ℕ) (h : p ∈ withRanks l n) :
    p.2 < n + l.length := by
  induction l generalizing n with
  | nil => cases h
  | cons x xs ih =>
    rw [withRanks] at h
    rcases List.mem_cons.1 h with rfl | h
    · simp
    · have := ih (n + 1) h
      simp only [List.length_cons]
      omega

theorem specPickGo_some_ne_none (lam : ℚ) (sel : List RankItem)
    (pairs : List (RankItem × ℕ)) (q : ℚ × RankItem × ℕ) :
    specPickGo lam sel (some q) pairs ≠ none := by
  induction pairs generalizing q with
  | nil => simp [specPickGo]
  | cons p rest ih =>
    obtain ⟨it, idx⟩ := p
    rw [specPickGo]
    by_cases h : q.1 < mmrScore lam sel it
    · rw [if_pos h]; exact ih _
    · rw [if_neg h]; exact ih _

theorem specPickGo_idx_lt (lam : ℚ) (sel : List RankItem) (n : ℕ) :
    ∀ (pairs : List (RankItem × ℕ)) (acc : Option (ℚ × RankItem × ℕ)),
      (∀ p ∈ pairs, p.2 < n) → (∀ q, acc = some q → q.2.2 < n) →
      ∀ r, specPickGo lam sel acc pairs = some r → r.2 < n := by
  intro pairs
  induction pairs with
  | nil =>
    intro acc hp hacc r hr
    rw [specPickGo] at hr
    cases acc with
    | none => cases hr
    | some q =>
      have := hacc q rfl
      cases hr
      exact this
  | cons p rest ih =>
    intro acc hp hacc r hr
    obtain ⟨it, idx⟩ := p
    have hidx : idx < n := hp (it, idx) (List.mem_cons_self _ _)
    have hrest : ∀ p ∈ rest, p.2 < n := fun p hmem => hp p (List.mem_cons_of_mem _ hmem)
    cases acc with
    | none =>
      rw [specPickGo] at hr
      exact ih _ hrest (by
        intro q hq
        rw [← Option.some.inj hq]
        exact hidx) r hr
    | some q =>
      rw [specPickGo] at hr
      by_cases h : q.1 < mmrScore lam sel it
      · rw [if_pos h] at hr
        exact ih _ hrest (by
          intro q' hq'
          rw [← Option.some.inj hq']
          exact hidx) r hr
      · rw [if_neg h] at hr
        exact ih _ hrest (by
          intro q' hq'
          rw [← Option.some.inj hq']
          exact hacc q rfl) r hr

theorem specPick_cons_some (lam : ℚ) (sel : List RankItem) (r : RankItem)
    (rs : List RankItem) :
    ∃ it idx, specPick lam sel (r :: rs) = some (it, idx) ∧ idx < (r :: rs).length := by
  rw [specPick, withRanks, specPickGo]
  rcases Option.ne_none_iff_exists.1 (specPickGo_some_ne_none lam sel (withRanks rs 1)
    (mmrScore lam sel r, r, 0)) with ⟨res, hres⟩
  obtain ⟨it, idx⟩ := res
  refine ⟨it, idx, hres.symm, ?_⟩
  refine specPickGo_idx_lt lam sel (r :: rs).length (withRanks rs 1) _ ?_ ?_ _ hres.symm
  · intro p hp
    have := withRanks_idx_lt rs 1 p hp
    simp only [List.length_cons]
    omega
  · intro q hq
    rw [← Option.some.inj hq]
    simp

/-! ### Loop-level facts -/

theorem mmrLoop_eq_specGreedyLoop (lam : ℚ) (h0 : 0 ≤ lam) (h1 : lam ≤ 1) :
    ∀ (steps : ℕ) (sel rem : List RankItem),
      (∀ it ∈ rem, -999999 < lam * mmrRelevance it - (1 - lam)) →
      mmrLoop lam steps sel rem = specGreedyLoop lam steps sel rem := by
  intro steps
  induction steps with
  | zero => intro sel rem h; rfl
  | succ n ih =>
    intro sel rem h
    cases rem with
    | nil => rfl
    | cons r rs =>
      rw [mmrLoop, specGreedyLoop, mmrPick_eq_specPick lam sel (r :: rs) h0 h1 h]
      rcases specPick_cons_some lam sel r rs with ⟨it, idx, hpick, hidx⟩
      rw [hpick]
      exact ih _ _ (fun x hx => h x (List.mem_of_mem_eraseIdx hx))

theorem specGreedyLoop_length (lam : ℚ) :
    ∀ (steps : ℕ) (sel rem : List RankItem),
      (specGreedyLoop lam steps sel rem).length = sel.length + min steps rem.length := by
  intro steps
  induction steps with
  | zero => intro sel rem; simp [specGreedyLoop]
  | succ n ih =>
    intro sel rem
    cases rem with
    | nil => simp [specGreedyLoop]
    | cons r rs =>
      rw [specGreedyLoop]
      rcases specPick_cons_some lam sel r rs with ⟨it, idx, hpick, hidx⟩
      have hlen : ((r :: rs).eraseIdx idx).length = rs.length := by
        rw [List.length_eraseIdx_of_lt hidx]
        rfl
      rw [hpick, ih, hlen]
      have hcons : (r :: rs).length = rs.length + 1 := rfl
      rw [hcons]
      simp only [List.length_append, List.length_cons, List.length_nil]
      omega

/-! ### Claim C4 -/

/-- C4, counterexample: the scan's sentinel is `-999999`, so a sole
candidate whose MMR score is `≤ -999999` (here relevance `-10^6`,
`lambda = 1`) is never picked: the loop breaks and the output is empty,
not of size `min top_n (len items) = 1`. -/
theorem mmr_sentinel_cx :
    mmr_rerank [⟨"a", some (-1000000), none⟩] 1 1 = [] ∧
      ([] : List RankItem).length ≠ min 1 [(⟨"a", some (-1000000), none⟩ : RankItem)].length := by
  constructor
  · norm_num [mmr_rerank, mmrLoop, mmrPick, withRanks, mmrPickGo, mmrScore, mmrRelevance,
      maxSimilarity]
  · simp

/-- C4 (amended: additionally assuming every item clears the scan's
sentinel, i.e. `-999999 < lambda * relevance - (1 - lambda)`, which
holds for all realistic scores): `mmr_rerank` equals the greedy
selection that at each step picks the first remaining candidate
maximizing `lambda * relevance - (1 - lambda) * maxSimilarity` against
the already-selected items, and its output has size
`min top_n (len items)`. -/
theorem mmr_rerank_greedy_spec (items : List RankItem) (lam : ℚ) (top_n : ℕ)
    (h0 : 0 ≤ lam) (h1 : lam ≤ 1)
    (hs : ∀ it ∈ items, -999999 < lam * mmrRelevance it - (1 - lam)) :
    mmr_rerank items lam top_n = mmrSpecGreedy items lam top_n ∧
      (mmr_rerank items lam top_n).length = min top_n items.length := by
  by_cases hempty : items = []
  · subst hempty
    constructor
    · rw [mmr_rerank, if_pos rfl, mmrSpecGreedy]
      cases top_n <;> rfl
    · rw [mmr_rerank, if_pos rfl]
      simp
  · have hmain : mmr_rerank items lam top_n = mmrSpecGreedy items lam top_n := by
      rw [mmr_rerank, if_neg hempty, if_neg (by
        push_neg
        exact ⟨h0, h1⟩), mmrSpecGreedy]
      exact mmrLoop_eq_specGreedyLoop lam h0 h1 top_n [] items hs
    refine ⟨hmain, ?_⟩
    rw [hmain, mmrSpecGreedy, specGreedyLoop_length]
    simp

/-- C4 witness: the amended theorem at `lambda = 1/2` on two scored
items. -/
theorem mmr_rerank_greedy_spec_witness :
    mmr_rerank [⟨"a", some 1, none⟩, ⟨"b", some 2, none⟩] (1/2) 2 =
        mmrSpecGreedy [⟨"a", some 1, none⟩, ⟨"b", some 2, none⟩] (1/2) 2 ∧
      (mmr_rerank [⟨"a", some 1, none⟩, ⟨"b", some 2, none⟩] (1/2) 2).length =
        min 2 [(⟨"a", some 1, none⟩ : RankItem), ⟨"b", some 2, none⟩].length :=
  mmr_rerank_greedy_spec _ _ 2 (by norm_num) (by norm_num) (by
    intro it hit
    rcases List.mem_cons.1 hit with rfl | hit
    · norm_num [mmrRelevance]
    rcases List.mem_cons.1 hit with rfl | hit
    · norm_num [mmrRelevance]
    cases hit)

/-! ### Claim C9 -/

theorem mmrPickGo_no_improvement (lam : ℚ) (sel : List RankItem) (bs : ℚ)
    (b : Option (RankItem × ℕ)) (pairs : List (RankItem × ℕ))
    (h : ∀ p ∈ pairs, mmrScore lam sel p.1 = bs) :
    mmrPickGo lam sel bs b pairs = b := by
  induction pairs with
  | nil => rfl
  | cons p rest ih =>
    obtain ⟨it, idx⟩ := p
    rw [mmrPickGo,
      if_neg (by rw [h (it, idx) (List.mem_cons_self _ _)]; exact lt_irrefl bs)]
    exact ih (fun q hq => h q (List.mem_cons_of_mem _ hq))

theorem mmrLoop_lam_one_zero_relevance :
    ∀ (steps : ℕ) (sel rem : List RankItem),
      (∀ it ∈ rem, mmrRelevance it = 0) →
      mmrLoop 1 steps sel rem = sel ++ rem.take steps := by
  intro steps
  induction steps with
  | zero => intro sel rem h; simp [mmrLoop]
  | succ n ih =>
    intro sel rem h
    cases rem with
    | nil => simp [mmrLoop]
    | cons r rs =>
      have hsc : ∀ it ∈ r :: rs, mmrScore 1 sel it = 0 := by
        intro it hit
        rw [mmrScore, h it hit]
        ring
      have hpick : mmrPick 1 sel (r :: rs) = some (r, 0) := by
        rw [mmrPick, withRanks, mmrPickGo,
          if_pos (by rw [hsc r (List.mem_cons_self _ _)]; norm_num),
          hsc r (List.mem_cons_self _ _)]
        exact mmrPickGo_no_improvement 1 sel 0 _ _ (fun p hp =>
          hsc p.1 (List.mem_cons_of_mem _ (mem_withRanks rs 1 p hp)))
      rw [mmrLoop, hpick]
      show mmrLoop 1 n (sel ++ [r]) rs = sel ++ (r :: rs).take (n + 1)
      rw [ih (sel ++ [r]) rs (fun it hit => h it (List.mem_cons_of_mem _ hit)),
        List.take_succ_cons, List.append_assoc]
      rfl

/-- C9: items without a `final_score` attribute (all `CandidateItem`
lists reaching the engine when reranking is off) get relevance 0.0, and
with `lambda = 1` (penalty weight 0) `mmr_rerank` returns the first
`top_n` items in input order. -/
theorem mmr_rerank_no_final_score (items : List RankItem) (top_n : ℕ)
    (h : ∀ it ∈ items, it.final_score = none) :
    (∀ it ∈ items, mmrRelevance it = 0) ∧
      mmr_rerank items 1 top_n = items.take top_n := by
  have hrel : ∀ it ∈ items, mmrRelevance it = 0 := by
    intro it hit
    rw [mmrRelevance, h it hit]
    rfl
  refine ⟨hrel, ?_⟩
  by_cases hempty : items = []
  · subst hempty
    rw [mmr_rerank, if_pos rfl]
    simp
  · rw [mmr_rerank, if_neg hempty, if_neg (by norm_num)]
    exact mmrLoop_lam_one_zero_relevance top_n [] items hrel

/-- C9 witness: two attribute-less items, `top_n = 1`. -/
theorem mmr_rerank_no_final_score_witness :
    mmr_rerank [⟨"x", none, none⟩, ⟨"y", none, none⟩] 1 1 = [⟨"x", none, none⟩] := by
  have h := (mmr_rerank_no_final_score [⟨"x", none, none⟩, ⟨"y", none, none⟩] 1 (by
    intro it hit
    rcases List.mem_cons.1 hit with rfl | hit
    · rfl
    rcases List.mem_cons.1 hit with rfl | hit
    · rfl
    cases hit)).2
  simpa using h

/-! ## Ranking engine (`app/rag/ranking/engine.py`) -/

/-- Outcomes of the engine's three external lookups for one `apply`
call: the Redis blacklist fetch, the SQL row for `lambda_param`
(`ok none` = no row found, then the default 0.5 is used), and the Redis
position rule for the query. `Except.error` models the lookup raising. -/
structure EngineDeps where
  blacklist : Except Unit (List String)
  lambdaRow : Except Unit (Option ℚ)
  rule : Except Unit (Option (String × ℕ))

/-- The engine's only instance state: the `_lambda_param` memo
(`None` until the first fetch). -/
structure EngineState where
  lambdaCache : Option ℚ
deriving DecidableEq, Repr

/-- `get_lambda_param`: returns the memoized value when present;
otherwise resolves the row — defaulting to 0.5 when the row is missing
or the fetch raises — and memoizes the result. -/
def get_lambda_param (st : EngineState) (row : Except Unit (Option ℚ)) : ℚ × EngineState :=
  match st.lambdaCache with
  | some v => (v, st)
  | none =>
    match row with
    | .ok (some x) => (x, ⟨some x⟩)
    | .ok none => (1/2, ⟨some (1/2)⟩)
    | .error _ => (1/2, ⟨some (1/2)⟩)

/-- `invalidate_lambda_cache`. -/
def invalidate_lambda_cache (_st : EngineState) : EngineState := ⟨none⟩

/-- `_filter_blacklist`: a raising fetch returns the input unchanged; an
empty blacklist short-circuits; otherwise items whose doc id is in the
blacklist are removed, preserving order. -/
def filter_blacklist (bl : Except Unit (List String)) (items : List RankItem) :
    List RankItem :=
  match bl with
  | .error _ => items
  | .ok blacklist =>
    if blacklist = [] then items
    else items.filter (fun it => decide (it.doc_id ∉ blacklist))

/-- `_apply_mmr`: a raising lambda fetch is absorbed inside
`get_lambda_param` (default 0.5), so MMR still runs; the stage's own
`except` is unreachable because `mmr_rerank` raises nothing. -/
def apply_mmr (st : EngineState) (row : Except Unit (Option ℚ)) (items : List RankItem)
    (top_n : ℕ) : List RankItem × EngineState :=
  match get_lambda_param st row with
  | (lam, st2) => (mmr_rerank items lam top_n, st2)

/-- The core of `_apply_position_rules` once a `(doc_id, position)` rule
has been fetched: find the first item with that doc id; if none, return
the list unchanged; else remove that item and reinsert it at
`min position (len rest)` (Python clamps with `min` before `insert`). -/
def apply_position_rule (items : List RankItem) (doc_id : String) (pos : ℕ) :
    List RankItem :=
  match items.find? (fun it => decide (it.doc_id = doc_id)) with
  | none => items
  | some target =>
    (items.eraseP (fun it => decide (it.doc_id = doc_id))).insertIdx
      (min pos (items.eraseP (fun it => decide (it.doc_id = doc_id))).length) target

/-- `_apply_position_rules`: a raising or absent rule fetch leaves the
list unchanged (the fetch precedes any mutation). -/
def apply_position_rules (rule : Except Unit (Option (String × ℕ)))
    (items : List RankItem) : List RankItem :=
  match rule with
  | .error _ => items
  | .ok none => items
  | .ok (some r) => apply_position_rule items r.1 r.2

/-- `RankingEngine.apply`: empty input short-circuits without touching
state; otherwise blacklist filter, then MMR (or a plain `[:top_n]`
truncation when diversity is disabled), then position rules. -/
def engineApply (st : EngineState) (deps : EngineDeps) (items : List RankItem)
    (top_n : ℕ) (enable_diversity enable_position : Bool) :
    List RankItem × EngineState :=
  if items = [] then ([], st)
  else
    let items1 := filter_blacklist deps.blacklist items
    let step2 := if enable_diversity then apply_mmr st deps.lambdaRow items1 top_n
                 else (items1.take top_n, st)
    let items3 := if enable_position then apply_position_rules deps.rule step2.1 else step2.1
    (items3, step2.2)

/-! ### Claim C2 -/

/-- C2, counterexample: with the diversity-lambda fetch raising (and the
other lookups benign), the MMR stage is not a no-op: `get_lambda_param`
absorbs the error and returns the default 0.5, so MMR still reorders and
truncates — here two items with `top_n = 1` come back as one item, not
as the unchanged input list. -/
theorem ranking_lambda_failure_not_noop_cx :
    (engineApply ⟨none⟩ ⟨.ok [], .error (), .ok none⟩
        [⟨"a", none, none⟩, ⟨"b", none, none⟩] 1 true true).1 ≠
      [⟨"a", none, none⟩, ⟨"b", none, none⟩] := by
  norm_num +decide [engineApply, filter_blacklist, apply_mmr, get_lambda_param,
    apply_position_rules, mmr_rerank, mmrLoop, mmrPick, withRanks, mmrPickGo, mmrScore,
    mmrRelevance, maxSimilarity, calculate_similarity, metaCategory, metaSource]

/-- C2 (amended): a raising blacklist fetch and a raising position-rule
fetch each make their stage return its input unchanged — so at `apply`
level they behave exactly like an empty blacklist and an absent rule,
and `apply` always returns; but a raising diversity-lambda fetch does
not disable the MMR stage: it falls back to the default `lambda = 0.5`
and MMR still runs (and memoizes 0.5). -/
theorem ranking_stage_failure_behavior :
    (∀ items : List RankItem, filter_blacklist (.error ()) items = items) ∧
    (∀ items : List RankItem, apply_position_rules (.error ()) items = items) ∧
    (∀ (items : List RankItem) (top_n : ℕ),
      apply_mmr ⟨none⟩ (.error ()) items top_n = (mmr_rerank items (1/2) top_n, ⟨some (1/2)⟩)) ∧
    (∀ (st : EngineState) (lrow : Except Unit (Option ℚ)) (items : List RankItem)
        (top_n : ℕ) (ed ep : Bool),
      engineApply st ⟨.error (), lrow, .error ()⟩ items top_n ed ep =
        engineApply st ⟨.ok [], lrow, .ok none⟩ items top_n ed ep) := by
  refine ⟨fun items => rfl, fun items => rfl, fun items top_n => rfl, ?_⟩
  intro st lrow items top_n ed ep
  rw [engineApply, engineApply]
  rfl

/-! ### Claim C6 -/

theorem insertIdx_length_self (l : List RankItem) (x : RankItem) :
    l.insertIdx l.length x = l ++ [x] := by
  induction l with
  | nil => rfl
  | cons a as ih =>
    show a :: as.insertIdx as.length x = a :: (as ++ [x])
    rw [ih]

/-- C6: for a fetched rule `(doc_id, position)`: if no item carries
`doc_id` the stage returns the list unchanged; if one does, the first
such item is removed and reinserted at `min position (len rest)`, and a
position `≥` the (original) list length appends it at the end. -/
theorem position_rule_spec (items : List RankItem) (d : String) (pos : ℕ) :
    (items.find? (fun it => decide (it.doc_id = d)) = none →
      apply_position_rules (.ok (some (d, pos))) items = items) ∧
    (∀ t, items.find? (fun it => decide (it.doc_id = d)) = some t →
      apply_position_rules (.ok (some (d, pos))) items =
        (items.eraseP (fun it => decide (it.doc_id = d))).insertIdx
          (min pos (items.eraseP (fun it => decide (it.doc_id = d))).length) t ∧
      (items.length ≤ pos →
        apply_position_rules (.ok (some (d, pos))) items =
          items.eraseP (fun it => decide (it.doc_id = d)) ++ [t])) := by
  constructor
  · intro hnone
    rw [apply_position_rules, apply_position_rule, hnone]
  · intro t hsome
    have hbase : apply_position_rules (.ok (some (d, pos))) items =
        (items.eraseP (fun it => decide (it.doc_id = d))).insertIdx
          (min pos (items.eraseP (fun it => decide (it.doc_id = d))).length) t := by
      rw [apply_position_rules, apply_position_rule, hsome]
    refine ⟨hbase, ?_⟩
    intro hpos
    rw [hbase]
    have hle : (items.eraseP (fun it => decide (it.doc_id = d))).length ≤ pos :=
      le_trans (List.length_eraseP_le items) hpos
    rw [min_eq_right hle, insertIdx_length_self]

/-- C6 witness: rule `("b", 5)` on a two-item list — present, and the
clamped position appends at the end. -/
theorem position_rule_spec_witness :
    apply_position_rules (.ok (some ("b", 5))) [⟨"a", none, none⟩, ⟨"b", none, none⟩] =
      [(⟨"a", none, none⟩ : RankItem), ⟨"b", none, none⟩].eraseP
          (fun it => decide (it.doc_id = "b")) ++ [⟨"b", none, none⟩] :=
  ((position_rule_spec [⟨"a", none, none⟩, ⟨"b", none, none⟩] "b" 5).2
    ⟨"b", none, none⟩ (by decide)).2 (by decide)

/-! ### Claim C8 -/

/-- C8, counterexample: the engine memoizes `_lambda_param`, so the
second `apply` on the same instance reuses the first call's lambda
(0.7) even though the store now holds 0.3: the second call returns the
0.7-ordering `[a, b]`, while a fresh fetch of 0.3 would give `[a, c]`. -/
theorem lambda_cache_not_fresh_cx :
    (engineApply
        (engineApply ⟨none⟩ ⟨.ok [], .ok (some (7/10)), .ok none⟩
          [⟨"a", some 1, some ⟨some "X", none⟩⟩, ⟨"b", some (9/10), some ⟨some "X", none⟩⟩,
           ⟨"c", some (1/2), some ⟨some "Y", none⟩⟩] 2 true true).2
        ⟨.ok [], .ok (some (3/10)), .ok none⟩
        [⟨"a", some 1, some ⟨some "X", none⟩⟩, ⟨"b", some (9/10), some ⟨some "X", none⟩⟩,
         ⟨"c", some (1/2), some ⟨some "Y", none⟩⟩] 2 true true).1 =
      [⟨"a", some 1, some ⟨some "X", none⟩⟩, ⟨"b", some (9/10), some ⟨some "X", none⟩⟩] ∧
    mmr_rerank
        [⟨"a", some 1, some ⟨some "X", none⟩⟩, ⟨"b", some (9/10), some ⟨some "X", none⟩⟩,
         ⟨"c", some (1/2), some ⟨some "Y", none⟩⟩] (3/10) 2 =
      [⟨"a", some 1, some ⟨some "X", none⟩⟩, ⟨"c", some (1/2), some ⟨some "Y", none⟩⟩] ∧
    ([(⟨"a", some 1, some ⟨some "X", none⟩⟩ : RankItem), ⟨"b", some (9/10), some ⟨some "X", none⟩⟩]
        ≠ [⟨"a", some 1, some ⟨some "X", none⟩⟩, ⟨"c", some (1/2), some ⟨some "Y", none⟩⟩]) := by
  refine ⟨?_, ?_, by norm_num⟩
  · norm_num +decide [engineApply, filter_blacklist, apply_mmr, get_lambda_param,
      apply_position_rules, mmr_rerank, mmrLoop, mmrPick, withRanks, mmrPickGo, mmrScore,
      mmrRelevance, maxSimilarity, calculate_similarity, metaCategory, metaSource]
  · norm_num +decide [mmr_rerank, mmrLoop, mmrPick, withRanks, mmrPickGo, mmrScore,
      mmrRelevance, maxSimilarity, calculate_similarity, metaCategory, metaSource]

/-- C8 (amended): the engine holds mutable state across requests — the
`_lambda_param` memo. Once the cache holds `v`, `get_lambda_param`
returns `v` without consulting the store, the whole `apply` call runs
MMR with `v` and leaves the state untouched, and only
`invalidate_lambda_cache` resets it. -/
theorem lambda_param_memoized (st : EngineState) (v : ℚ) (h : st.lambdaCache = some v) :
    (∀ row, get_lambda_param st row = (v, st)) ∧
    (∀ (deps : EngineDeps) (items : List RankItem) (top_n : ℕ) (ep : Bool),
      items ≠ [] →
      engineApply st deps items top_n true ep =
        ((if ep then
            apply_position_rules deps.rule
              (mmr_rerank (filter_blacklist deps.blacklist items) v top_n)
          else mmr_rerank (filter_blacklist deps.blacklist items) v top_n), st)) ∧
    invalidate_lambda_cache st = ⟨none⟩ := by
  have hget : ∀ row, get_lambda_param st row = (v, st) := by
    intro row
    rw [get_lambda_param.eq_def, h]
  refine ⟨hget, ?_, rfl⟩
  intro deps items top_n ep hne
  simp only [engineApply, if_neg hne, apply_mmr, hget deps.lambdaRow]
  cases ep <;> rfl

/-- C8 witness: a cache holding 0.7 answers 0.7 even when the store row
now says 0.3. -/
theorem lambda_param_memoized_witness :
    get_lambda_param ⟨some (7/10)⟩ (.ok (some (3/10))) = (7/10, ⟨some (7/10)⟩) :=
  (lambda_param_memoized ⟨some (7/10)⟩ (7/10) rfl).1 (.ok (some (3/10)))

/-! ## Rerank service (`app/rag/rerank/service.py`, `policy.py`)

`predict` is modelled with the external model call's resolved outcome
passed in (`Except.error` = `predict_scores` raised) and with
`user_features = None`, which is how the gateway invokes it (so the
personalization boost in `apply_policies` is skipped and only the
`"official"`-source business rule applies). -/

/-- `PolicyEngine.apply_policies` with `user_features = None`: each
final score is the semantic score plus 0.1 when the document metadata
has `"source" == "official"`; the zip truncates to the shorter list. -/
def apply_policies : List ℚ → List (Option MetaMap) → List ℚ
  | s :: ss, m :: ms =>
    (if metaSource m = some "official" then s + 1/10 else s) :: apply_policies ss ms
  | _, _ => []

/-- Step 4's zip building `ScoredItem`s (truncates at the shortest
input; `content` is the `c.content or ""` string handed to the model). -/
def buildScored : List CandidateItem → List ℚ → List ℚ → List ScoredItem
  | c :: cs, s :: ss, f :: fs =>
    ⟨c.doc_id, f, c.score, some s, some (c.content.getD ""), c.metadata⟩ ::
      buildScored cs ss fs
  | _, _, _ => []

/-- `_validate_descending_order` succeeds iff no adjacent pair ascends
strictly. -/
def descendingOk : List ℚ → Bool
  | [] => true
  | [_] => true
  | a :: b :: rest => (!decide (a < b)) && descendingOk (b :: rest)

/-- `_fallback_to_candidates`: the original candidates in original
order, with `final_score = original_score = score`. -/
def fallback_to_candidates (candidates : List CandidateItem) : List ScoredItem :=
  candidates.map (fun c => ⟨c.doc_id, c.score, c.score, none, c.content, c.metadata⟩)

/-- Steps 2–5 of the happy path: score, apply policies, build items,
sort descending by `final_score` (stable). -/
def rerankSorted (candidates : List CandidateItem) (semantic_scores : List ℚ) :
    List ScoredItem :=
  sortDescBy (fun s => s.final_score)
    (buildScored candidates semantic_scores
      (apply_policies semantic_scores (candidates.map (fun c => c.metadata))))

/-- `RerankService.predict`. The whole body sits in one `try`: a raising
model call, a failed validation (`ValueError`), and the success log's
`sorted_items[0]` on an empty zip (`IndexError`) all land in the
`except`, which returns the fallback conversion instead of raising. -/
def rerankPredict (candidates : List CandidateItem) (modelScores : Except Unit (List ℚ))
    (enable_validation : Bool) : List ScoredItem :=
  if candidates = [] then []
  else
    match modelScores with
    | .error _ => fallback_to_candidates candidates
    | .ok semantic_scores =>
      if enable_validation &&
          !(descendingOk ((rerankSorted candidates semantic_scores).map
            (fun s => s.final_score))) then
        fallback_to_candidates candidates
      else if rerankSorted candidates semantic_scores = [] then
        fallback_to_candidates candidates
      else
        rerankSorted candidates semantic_scores

/-! ### The stable sort really sorts descending -/

theorem descendingOk_iff_chain (l : List ℚ) :
    descendingOk l = true ↔ l.Chain' (fun a b => ¬ a < b) := by
  induction l with
  | nil => simp [descendingOk]
  | cons a t ih =>
    cases t with
    | nil => simp [descendingOk]
    | cons b rest =>
      rw [descendingOk, Bool.and_eq_true, ih, List.chain'_cons]
      simp

theorem chain_insertDescBy (key : α → ℚ) (x : α) (l : List α)
    (h : (l.map key).Chain' (fun a b => ¬ a < b)) :
    ((insertDescBy key x l).map key).Chain' (fun a b => ¬ a < b) := by
  induction l with
  | nil => simp [insertDescBy]
  | cons y ys ih =>
    rw [insertDescBy]
    by_cases hxy : key x < key y
    · rw [if_pos hxy]
      rw [List.map_cons] at h ⊢
      cases ys with
      | nil =>
        simp [insertDescBy]
        exact le_of_lt hxy
      | cons z zs =>
        rw [List.map_cons, List.chain'_cons] at h
        obtain ⟨hyz, htail⟩ := h
        have htail' := ih htail
        rw [insertDescBy] at htail' ⊢
        by_cases hxz : key x < key z
        · rw [if_pos hxz] at htail' ⊢
          rw [List.map_cons] at htail' ⊢
          rw [List.chain'_cons]
          exact ⟨hyz, htail'⟩
        · rw [if_neg hxz] at htail' ⊢
          rw [List.map_cons] at htail' ⊢
          rw [List.chain'_cons]
          exact ⟨lt_asymm hxy, htail'⟩
    · rw [if_neg hxy]
      rw [List.map_cons, List.map_cons, List.chain'_cons]
      rw [List.map_cons] at h
      exact ⟨hxy, h⟩

theorem descendingOk_sortDescBy (key : α → ℚ) (l : List α) :
    descendingOk ((sortDescBy key l).map key) = true := by
  rw [descendingOk_iff_chain]
  induction l with
  | nil => simp [sortDescBy]
  | cons x xs ih =>
    rw [sortDescBy, List.foldr_cons]
    exact chain_insertDescBy key x _ ih

/-! ### Claim C3 -/

/-- C3, counterexample: when the model call raises, `predict` returns
normally with the fallback list, whose `final_score`s are the original
candidate scores in candidate order — here `[1, 2]`, a strictly
ascending adjacent pair. So `predict` can return normally with
non-monotone output, and a validation failure would be caught by the
same `except` rather than surfaced. -/
theorem rerank_masks_violation_cx :
    rerankPredict [⟨"a", 1, "vector", none, none⟩, ⟨"b", 2, "vector", none, none⟩]
        (.error ()) true =
      [⟨"a", 1, 1, none, none, none⟩, ⟨"b", 2, 2, none, none, none⟩] ∧
    descendingOk ([(⟨"a", 1, 1, none, none, none⟩ : ScoredItem),
        ⟨"b", 2, 2, none, none, none⟩].map (fun s => s.final_score)) = false := by
  constructor
  · rfl
  · show descendingOk [(1 : ℚ), 2] = false
    rw [descendingOk, decide_eq_true (show (1 : ℚ) < 2 by norm_num)]
    rfl

/-- C3 (amended): `predict` never raises to its caller. On the
successful model path its output is the stable descending sort, which
always passes the validation (the sort is provably non-increasing); on
any internal failure — the model call raising, or the model returning no
scores for a non-empty candidate list — it returns the fallback
conversion of the candidates, whose scores may be ascending. -/
theorem rerank_predict_fallback_behavior :
    (∀ (cands : List CandidateItem) (ev : Bool),
      rerankPredict cands (.error ()) ev = fallback_to_candidates cands) ∧
    (∀ (cands : List CandidateItem) (scores : List ℚ) (ev : Bool),
      rerankPredict cands (.ok scores) ev = fallback_to_candidates cands ∨
        rerankPredict cands (.ok scores) ev = rerankSorted cands scores) ∧
    (∀ (cands : List CandidateItem) (scores : List ℚ),
      descendingOk ((rerankSorted cands scores).map (fun s => s.final_score)) = true) := by
  refine ⟨?_, ?_, ?_⟩
  · intro cands ev
    by_cases h : cands = []
    · subst h; rfl
    · rw [rerankPredict, if_neg h]
  · intro cands scores ev
    by_cases h : cands = []
    · subst h; left; rfl
    · simp only [rerankPredict, if_neg h]
      split
      · left; rfl
      · split
        · left; rfl
        · right; rfl
  · intro cands scores
    exact descendingOk_sortDescBy _ _

/-! ## Recall strategies (`app/rag/strategies/vector_strategy.py`,
`keyword_strategy.py`)

Each strategy's external client call is passed in as its resolved
outcome (`Except.error` = the call raised); `top_k` is forwarded to the
client and does not otherwise affect the strategy body. -/

/-- `SearchContext` (`models/search_context.py`): the fields this
pipeline reads. -/
structure SearchContext where
  original_query : String
  query_vector : Option (List ℚ)
  tokens : Option (List String)

/-- One raw Milvus hit: id, L2 distance, and the entity payload (the
content plus the metadata keys this pipeline reads). -/
structure VectorHit where
  id : String
  score : ℚ
  content : Option String
  meta : MetaMap

/-- One raw Elasticsearch hit. -/
structure KeywordHit where
  id : String
  score : ℚ
  content : Option String
  meta : MetaMap

/-- `VectorRecallStrategy.recall`: `if not context.query_vector` skips
on a missing or empty vector; a raising client call — or the `1/(1+d)`
conversion dividing by zero at distance `d = -1` — is caught by the
strategy's `except` and yields `[]`. -/
def vectorRecall (context : SearchContext) (top_k : ℕ)
    (client : Except Unit (List VectorHit)) : List CandidateItem :=
  match context.query_vector with
  | none => []
  | some v =>
    if v = [] then []
    else
      match client with
      | .error _ => []
      | .ok hits =>
        if hits.any (fun h => decide ((1 : ℚ) + h.score = 0)) then []
        else hits.map (fun h => ⟨h.id, 1 / (1 + h.score), "vector", h.content, some h.meta⟩)

/-- `KeywordRecallStrategy.recall`: `if not context.tokens` skips on
missing or empty tokens; a raising client call yields `[]`. -/
def keywordRecall (context : SearchContext) (top_k : ℕ)
    (client : Except Unit (List KeywordHit)) : List CandidateItem :=
  match context.tokens with
  | none => []
  | some t =>
    if t = [] then []
    else
      match client with
      | .error _ => []
      | .ok hits => hits.map (fun h => ⟨h.id, h.score, "keyword", h.content, some h.meta⟩)

/-- `_parallel_recall` over the two configured strategies; branch
results are collected by strategy position. -/
def parallel_recall (context : SearchContext) (top_k : ℕ)
    (vres : Except Unit (List VectorHit)) (kres : Except Unit (List KeywordHit)) :
    List (List CandidateItem) :=
  [vectorRecall context top_k vres, keywordRecall context top_k kres]

/-- The per-strategy `recall_stats` map (strategy name, result count). -/
def recall_stats (lists : List (List CandidateItem)) : List (String × ℕ) :=
  ["vector", "keyword"].zip (lists.map (fun l => l.length))

/-! ### Claim C5 -/

/-- C5: a raising client call makes the strategy return `[]` instead of
propagating; the failing strategy then shows count 0 in the stats while
the other keeps its results, and an empty recall list contributes
nothing to the fusion, so the gateway still returns the remaining
strategies' results. -/
theorem recall_failure_isolation :
    (∀ (ctx : SearchContext) (top_k : ℕ), vectorRecall ctx top_k (.error ()) = []) ∧
    (∀ (ctx : SearchContext) (top_k : ℕ), keywordRecall ctx top_k (.error ()) = []) ∧
    (∀ (ctx : SearchContext) (top_k : ℕ) (khits : List KeywordHit),
      parallel_recall ctx top_k (.error ()) (.ok khits) =
        [[], keywordRecall ctx top_k (.ok khits)]) ∧
    (∀ (ctx : SearchContext) (top_k : ℕ) (khits : List KeywordHit),
      recall_stats (parallel_recall ctx top_k (.error ()) (.ok khits)) =
        [("vector", 0), ("keyword", (keywordRecall ctx top_k (.ok khits)).length)]) ∧
    (∀ (rest : List (List CandidateItem)) (n : ℕ) (k : ℤ),
      rrf_merge ([] :: rest) n k = rrf_merge rest n k) := by
  have hvec : ∀ (ctx : SearchContext) (top_k : ℕ), vectorRecall ctx top_k (.error ()) = [] := by
    intro ctx top_k
    obtain ⟨q, qv, tk⟩ := ctx
    cases qv <;> simp [vectorRecall]
  have hkey : ∀ (ctx : SearchContext) (top_k : ℕ), keywordRecall ctx top_k (.error ()) = [] := by
    intro ctx top_k
    obtain ⟨q, qv, tk⟩ := ctx
    cases tk <;> simp [keywordRecall]
  have hocc : ∀ rest : List (List CandidateItem),
      occurrences (([] : List CandidateItem) :: rest) = occurrences rest := by
    intro rest
    simp [occurrences, withRanks]
  refine ⟨hvec, hkey, ?_, ?_, ?_⟩
  · intro ctx top_k khits
    rw [parallel_recall, hvec ctx top_k]
  · intro ctx top_k khits
    rw [parallel_recall, hvec ctx top_k]
    rfl
  · intro rest n k
    rw [rrf_merge, rrf_merge, hocc rest]

/-! ## Search gateway (`app/rag/search_gateway.py`) -/

/-- The pipeline value handed to Step 5: `CandidateItem`s when the
reranker was skipped, `ScoredItem`s when it ran. -/
inductive PipeResult where
  | cands : List CandidateItem → PipeResult
  | scored : List ScoredItem → PipeResult
deriving DecidableEq, Repr

def pipeLen : PipeResult → ℕ
  | .cands l => l.length
  | .scored l => l.length

/-- Step 4 when `enable_rerank` is true: with a configured service, run
`predict` on the merged pool, re-sort by `final_score` descending, and
truncate to `top_n`; with `rerank_service = None` (`svc = none`), fall
through to the plain `merged[:top_n]`. -/
def gatewayRerankStage (top_n : ℕ) (svc : Option (Except Unit (List ℚ)))
    (merged : List CandidateItem) : PipeResult :=
  match svc with
  | some modelScores =>
    .scored ((sortDescBy (fun s => s.final_score)
      (rerankPredict merged modelScores true)).take top_n)
  | none => .cands (merged.take top_n)

/-- Steps 3–4 of `search`: fuse with `top_n * 2` when reranking is
enabled (else `top_n`) using the default `k = 60`, then rerank/truncate.
`none` models the fusion raising (re-raised at the gateway boundary). -/
def gatewayFuseRerank (candidate_lists : List (List CandidateItem)) (top_n : ℕ)
    (enable_rerank : Bool) (svc : Option (Except Unit (List ℚ))) : Option PipeResult :=
  (rrf_merge candidate_lists (if enable_rerank then top_n * 2 else top_n) 60).map
    (fun merged =>
      if enable_rerank then gatewayRerankStage top_n svc merged
      else .cands (merged.take top_n))

/-- With the default `k = 60` every denominator `60 + r` is positive, so
the fusion call never raises. -/
theorem rrf_merge_sixty_isSome (lists : List (List CandidateItem)) (n : ℕ) :
    rrf_merge lists n 60 = some (rrfSpecMerge lists n 60) :=
  rrf_merge_matches_spec lists n 60 (by
    intro p hp
    omega)

/-! ### Claim C7 -/

/-- C7: with `enable_rerank` true the gateway requests `2 * top_n` items
from fusion (with it false, only `top_n`), and whatever Step 4 hands to
the next stage has at most `top_n` items. -/
theorem gateway_rerank_pool_truncation (lists : List (List CandidateItem)) (top_n : ℕ) :
    (∀ (er : Bool) (svc : Option (Except Unit (List ℚ))) (out : PipeResult),
      gatewayFuseRerank lists top_n er svc = some out → pipeLen out ≤ top_n) ∧
    (∃ merged, rrf_merge lists (top_n * 2) 60 = some merged ∧
      ∀ svc, gatewayFuseRerank lists top_n true svc = some (gatewayRerankStage top_n svc merged)) ∧
    (∀ svc, gatewayFuseRerank lists top_n false svc =
      (rrf_merge lists top_n 60).map (fun m => PipeResult.cands (m.take top_n))) := by
  refine ⟨?_, ?_, ?_⟩
  · intro er svc out hout
    rw [gatewayFuseRerank, rrf_merge_sixty_isSome] at hout
    simp only [Option.map_some'] at hout
    rw [← Option.some.inj hout]
    cases er with
    | false =>
      show pipeLen (PipeResult.cands (List.take top_n _)) ≤ top_n
      exact List.length_take_le _ _
    | true =>
      show pipeLen (gatewayRerankStage top_n svc _) ≤ top_n
      cases svc with
      | none => exact List.length_take_le _ _
      | some ms => exact List.length_take_le _ _
  · refine ⟨rrfSpecMerge lists (top_n * 2) 60, rrf_merge_sixty_isSome lists (top_n * 2), ?_⟩
    intro svc
    rw [gatewayFuseRerank, if_pos rfl, rrf_merge_sixty_isSome]
    simp only [Option.map_some', if_true]
  · intro svc
    rw [gatewayFuseRerank]
    rfl

/-- C7 witness: a one-candidate pool, `top_n = 1`, rerank enabled but no
service configured. -/
theorem gateway_rerank_pool_truncation_witness :
    pipeLen (gatewayRerankStage 1 none
      (rrfSpecMerge [[⟨"a", 1, "vector", none, none⟩]] (1 * 2) 60)) ≤ 1 := by
  refine (gateway_rerank_pool_truncation [[⟨"a", 1, "vector", none, none⟩]] 1).1 true none _ ?_
  rw [gatewayFuseRerank, if_pos rfl, rrf_merge_sixty_isSome]
  rfl

/-! ## Claim C10: in-place mutation inside `rrf_merge`

Python objects are modelled by a store (a list of `CandidateItem`
cells); the caller's candidate lists are lists of references (indices)
into the store. `candidate.score = data["rrf_score"]` writes through the
reference kept at the first occurrence of each doc id, and the returned
list is those same references, so the caller's lists alias mutated
cells after the call. -/

/-- Dereferencing a doc id through the store. -/
def heapDocId (store : List CandidateItem) (r : ℕ) : String :=
  (store.getD r default).doc_id

/-- The accumulation dict over reference occurrences (same fold as the
value-level `rrf_merge`, payload = first-seen reference). -/
def heapEntries (store : List CandidateItem) (k : ℤ) (lists : List (List ℕ)) :
    List (RRFEntry ℕ) :=
  rrfAccum (heapDocId store) k (occurrences lists)

/-- The write-back loop: each dict entry sets the `score` field of the
cell its first-seen reference points to. -/
def writeScores (entries : List (RRFEntry ℕ)) (store : List CandidateItem) :
    List CandidateItem :=
  entries.foldl
    (fun s e => s.set e.candidate { s.getD e.candidate default with score := e.rrf_score })
    store

/-- `rrf_merge` on the heap: the mutated store plus the returned
references (stable-sorted by summed score, truncated to `top_n`). -/
def rrf_merge_heap (store : List CandidateItem) (lists : List (List ℕ)) (top_n : ℕ)
    (k : ℤ) : Option (List CandidateItem × List ℕ) :=
  if (occurrences lists).all (fun p => k + (p.2 : ℤ) != 0) then
    some (writeScores (heapEntries store k lists) store,
      ((sortDescBy (fun e => e.rrf_score) (heapEntries store k lists)).take top_n).map
        (fun e => e.candidate))
  else none

/-! ### Store-update lemmas -/

theorem getD_set_ne (l : List CandidateItem) (i j : ℕ) (v d : CandidateItem) (h : i ≠ j) :
    (l.set i v).getD j d = l.getD j d := by
  simp [List.getD_eq_getElem?_getD, List.getElem?_set_ne h]

theorem getD_set_self (l : List CandidateItem) (i : ℕ) (v d : CandidateItem)
    (h : i < l.length) :
    (l.set i v).getD i d = v := by
  simp [List.getD_eq_getElem?_getD, List.getElem?_set_self, h]

theorem writeScores_getD_not_mem (entries : List (RRFEntry ℕ)) (store : List CandidateItem)
    (r : ℕ) (h : r ∉ entries.map (fun e => e.candidate)) :
    (writeScores entries store).getD r default = store.getD r default := by
  induction entries generalizing store with
  | nil => rfl
  | cons e es ih =>
    rw [List.map_cons] at h
    rw [writeScores, List.foldl_cons, ← writeScores,
      ih _ (fun hc => h (List.mem_cons_of_mem _ hc)),
      getD_set_ne _ _ _ _ _ (fun hc => h (by rw [← hc]; exact List.mem_cons_self _ _))]

theorem writeScores_getD_mem (entries : List (RRFEntry ℕ)) (store : List CandidateItem)
    (hnd : (entries.map (fun e => e.candidate)).Nodup)
    (hvalid : ∀ e ∈ entries, e.candidate < store.length) :
    ∀ e ∈ entries, (writeScores entries store).getD e.candidate default =
      { store.getD e.candidate default with score := e.rrf_score } := by
  induction entries generalizing store with
  | nil => intro e he; cases he
  | cons e0 es ih =>
    intro e he
    rw [List.map_cons, List.nodup_cons] at hnd
    obtain ⟨h0, hnd'⟩ := hnd
    rw [writeScores, List.foldl_cons, ← writeScores]
    rcases List.mem_cons.1 he with rfl | he'
    · rw [writeScores_getD_not_mem _ _ _ h0,
        getD_set_self _ _ _ _ (hvalid e (List.mem_cons_self _ _))]
    · have hne : e0.candidate ≠ e.candidate := by
        intro hc
        exact h0 (hc ▸ List.mem_map.2 ⟨e, he', rfl⟩)
      have hvalid' : ∀ e' ∈ es, e'.candidate <
          (store.set e0.candidate
            { store.getD e0.candidate default with score := e0.rrf_score }).length := by
        intro e' he''
        rw [List.length_set]
        exact hvalid e' (List.mem_cons_of_mem _ he'')
      rw [ih _ hnd' hvalid' e he', getD_set_ne _ _ _ _ _ hne]

/-! ### Facts about the accumulated entries -/

theorem occurrences_fst_mem (lists : List (List ℕ)) (p : ℕ × ℕ)
    (h : p ∈ occurrences lists) : p.1 ∈ lists.flatten := by
  rw [occurrences, List.mem_flatMap] at h
  rcases h with ⟨l, hl, hp⟩
  exact List.mem_flatten.2 ⟨l, hl, mem_withRanks l 0 p hp⟩

theorem heapEntries_facts (store : List CandidateItem) (k : ℤ) (lists : List (List ℕ)) :
    ∀ e ∈ heapEntries store k lists,
      e.rrf_score = rrfSummedScore (heapDocId store) k (occurrences lists) e.doc_id ∧
      e.candidate = firstPayload (heapDocId store) (occurrences lists) e.doc_id ∧
      heapDocId store e.candidate = e.doc_id ∧
      e.candidate ∈ lists.flatten := by
  intro e he
  rw [heapEntries, rrfAccum_canonical] at he
  rcases List.mem_map.1 he with ⟨id, hid, rfl⟩
  have hmem : id ∈ (occurrences lists).map (fun q => heapDocId store q.1) :=
    (mem_firstSeenOrder _ _).1 hid
  have hfind : (((occurrences lists).find?
      (fun p => decide (heapDocId store p.1 = id)))).isSome :=
    (mem_ids_iff_find?_isSome _ _ _).1 hmem
  rcases Option.isSome_iff_exists.1 hfind with ⟨q, hq⟩
  have hq1 : heapDocId store q.1 = id := by
    have := List.find?_some hq
    simpa using this
  have hpayload : firstPayload (heapDocId store) (occurrences lists) id = q.1 := by
    rw [firstPayload, hq]
    rfl
  refine ⟨rfl, rfl, ?_, ?_⟩
  · show heapDocId store (firstPayload (heapDocId store) (occurrences lists) id) = id
    rw [hpayload, hq1]
  · show firstPayload (heapDocId store) (occurrences lists) id ∈ lists.flatten
    rw [hpayload]
    exact occurrences_fst_mem lists q (List.mem_of_find?_eq_some hq)

theorem heapEntries_nodup (store : List CandidateItem) (k : ℤ) (lists : List (List ℕ)) :
    (heapEntries store k lists).Nodup := by
  rw [heapEntries, rrfAccum_canonical]
  refine (nodup_firstSeenOrder _).map_on ?_
  intro x hx y hy hxy
  exact congrArg (fun e => e.doc_id) hxy

theorem heapEntries_refs_nodup (store : List CandidateItem) (k : ℤ) (lists : List (List ℕ)) :
    ((heapEntries store k lists).map (fun e => e.candidate)).Nodup := by
  have hfacts := heapEntries_facts store k lists
  refine (heapEntries_nodup store k lists).map_on ?_
  intro x hx y hy hxy
  have hdoc : x.doc_id = y.doc_id := by
    rw [← (hfacts x hx).2.2.1, ← (hfacts y hy).2.2.1, hxy]
  have hx2 := hx
  have hy2 := hy
  rw [heapEntries, rrfAccum_canonical] at hx2 hy2
  rcases List.mem_map.1 hx2 with ⟨idx, hidx, hxe⟩
  rcases List.mem_map.1 hy2 with ⟨idy, hidy, hye⟩
  have h1 : x.doc_id = idx := by rw [← hxe]; rfl
  have h2 : y.doc_id = idy := by rw [← hye]; rfl
  rw [← hxe, ← hye]
  rw [show idx = idy from by rw [← h1, ← h2, hdoc]]

theorem mem_insertDescBy (key : α → ℚ) (x a : α) (l : List α) :
    a ∈ insertDescBy key x l ↔ a ∈ x :: l := by
  induction l with
  | nil => simp [insertDescBy]
  | cons y ys ih =>
    rw [insertDescBy]
    by_cases h : key x < key y
    · rw [if_pos h]
      simp only [List.mem_cons] at ih ⊢
      rw [ih]
      tauto
    · rw [if_neg h]

theorem mem_sortDescBy (key : α → ℚ) (a : α) (l : List α) :
    a ∈ sortDescBy key l ↔ a ∈ l := by
  induction l with
  | nil => exact Iff.rfl
  | cons x xs ih =>
    rw [sortDescBy, List.foldr_cons, ← sortDescBy, mem_insertDescBy, List.mem_cons, ih,
      List.mem_cons]

/-! ### Claim C10 -/

/-- C10: `rrf_merge` mutates its inputs. For every store, reference
lists and `k` with no zero denominator: the call succeeds; every
returned reference is one of the caller's input references; for every
accumulated doc id, the store cell behind its first-seen reference now
carries the summed RRF score (all other fields intact) instead of its
original per-source score; and cells not referenced by a first-seen
reference are untouched. -/
theorem rrf_merge_heap_mutates (store : List CandidateItem) (lists : List (List ℕ))
    (top_n : ℕ) (k : ℤ)
    (hk : ∀ p ∈ occurrences lists, k + (p.2 : ℤ) ≠ 0)
    (hvalid : ∀ r ∈ lists.flatten, r < store.length) :
    ∃ store2 res,
      rrf_merge_heap store lists top_n k = some (store2, res) ∧
      (∀ r ∈ res, r ∈ lists.flatten) ∧
      (∀ e ∈ heapEntries store k lists,
        store2.getD e.candidate default =
          { store.getD e.candidate default with score := e.rrf_score } ∧
        e.rrf_score = rrfSummedScore (heapDocId store) k (occurrences lists) e.doc_id ∧
        e.candidate = firstPayload (heapDocId store) (occurrences lists) e.doc_id) ∧
      (∀ r, r ∉ (heapEntries store k lists).map (fun e => e.candidate) →
        store2.getD r default = store.getD r default) := by
  refine ⟨writeScores (heapEntries store k lists) store,
    ((sortDescBy (fun e => e.rrf_score) (heapEntries store k lists)).take top_n).map
      (fun e => e.candidate), ?_, ?_, ?_, ?_⟩
  · rw [rrf_merge_heap, if_pos (by
      rw [List.all_eq_true]
      intro p hp
      simpa using hk p hp)]
  · intro r hr
    rcases List.mem_map.1 hr with ⟨e, he, rfl⟩
    have he' : e ∈ heapEntries store k lists :=
      (mem_sortDescBy _ _ _).1 (List.mem_of_mem_take he)
    exact (heapEntries_facts store k lists e he').2.2.2
  · intro e he
    have hfacts := heapEntries_facts store k lists e he
    refine ⟨?_, hfacts.1, hfacts.2.1⟩
    refine writeScores_getD_mem _ _ (heapEntries_refs_nodup store k lists) ?_ e he
    intro e' he'
    exact hvalid _ (heapEntries_facts store k lists e' he').2.2.2
  · intro r hr
    exact writeScores_getD_not_mem _ _ _ hr

/-- C10 witness: the same document `"a"` recalled by both sources as
two distinct objects (cells 0 and 1); after fusion the first-seen cell
0 carries the summed RRF score `1/60 + 1/60` instead of its original
`1/2`, and the returned list references cell 0. -/
theorem rrf_merge_heap_mutates_witness :
    ∃ store2 res,
      rrf_merge_heap [⟨"a", 1/2, "vector", none, none⟩, ⟨"a", 3, "keyword", none, none⟩]
          [[0], [1]] 5 60 = some (store2, res) ∧
      (∀ r ∈ res, r ∈ ([[0], [1]] : List (List ℕ)).flatten) ∧
      (∀ e ∈ heapEntries [⟨"a", 1/2, "vector", none, none⟩, ⟨"a", 3, "keyword", none, none⟩]
          60 [[0], [1]],
        store2.getD e.candidate default =
          { [(⟨"a", 1/2, "vector", none, none⟩ : CandidateItem),
             ⟨"a", 3, "keyword", none, none⟩].getD e.candidate default with
            score := e.rrf_score } ∧
        e.rrf_score = rrfSummedScore
          (heapDocId [⟨"a", 1/2, "vector", none, none⟩, ⟨"a", 3, "keyword", none, none⟩]) 60
          (occurrences [[0], [1]]) e.doc_id ∧
        e.candidate = firstPayload
          (heapDocId [⟨"a", 1/2, "vector", none, none⟩, ⟨"a", 3, "keyword", none, none⟩])
          (occurrences [[0], [1]]) e.doc_id) ∧
      (∀ r, r ∉ (heapEntries [⟨"a", 1/2, "vector", none, none⟩, ⟨"a", 3, "keyword", none, none⟩]
          60 [[0], [1]]).map (fun e => e.candidate) →
        store2.getD r default =
          [(⟨"a", 1/2, "vector", none, none⟩ : CandidateItem),
           ⟨"a", 3, "keyword", none, none⟩].getD r default) :=
  rrf_merge_heap_mutates _ [[0], [1]] 5 60 (by decide) (by decide)

end RagPipeline
